import Mathlib

/-
Verification of the change-feed consumption subsystem of a CouchDB HTTP
client library (feeds.go).  The continuous-mode and poll-mode feed decoders
are embedded shallowly: the `encoding/json` token stream is modelled as a
list of JSON tokens, `json.Decoder` as a cursor over that list, and the
feed iterators (`ChangesFeed.Next`, `DBUpdatesFeed.Next`, `Close`, the two
parser closures, `expectTokens`, `skipValue`) as explicit state-passing
functions translated from the Go source.
-/

namespace Feeds

/-- JSON values as decoded by Go's `encoding/json` into `interface{}`.
Numbers are modelled as rationals, abstracting the platform's default
JSON number representation (`float64`); the model keeps the JSON dynamic
kind (null / bool / number / string / array / object) exact, which is what
the feed code depends on. -/
inductive Jval where
  | null : Jval
  | bool (b : Bool) : Jval
  | num (q : Rat) : Jval
  | str (s : String) : Jval
  | arr (elems : List Jval) : Jval
  | obj (fields : List (String × Jval)) : Jval

/-- Tokens produced by `json.Decoder.Token`: delimiters and scalar values
(commas and colons are consumed silently by the Go decoder). -/
inductive JTok where
  | lbrace : JTok
  | rbrace : JTok
  | lbrack : JTok
  | rbrack : JTok
  | null : JTok
  | bool (b : Bool) : JTok
  | num (q : Rat) : JTok
  | str (s : String) : JTok
deriving DecidableEq, Repr

/-- What the byte stream holds after the last complete token: a clean
connection closure (`eof`) or bytes that are not valid JSON (`bad`). -/
inductive Tail where
  | eof : Tail
  | bad : Tail
deriving DecidableEq, Repr

/-- Errors surfaced by the feed code: `io.EOF`, a JSON syntax error,
an `expectTokens` mismatch, an unmarshal type error for a struct field,
the wrapped trailing-key errors of the poll parser, and the unsupported
"feed" option error of `DB.Changes`. -/
inductive GoErr where
  | eof : GoErr
  | malformed : GoErr
  | unexpectedTok : GoErr
  | typeErr (field : String) : GoErr
  | keyErr (key : String) (inner : GoErr) : GoErr
  | unsupportedFeed (v : Jval) : GoErr

/-- The state of a `json.Decoder`: the tokens not yet consumed, and what
the underlying stream holds after them. -/
structure Dec where
  toks : List JTok
  tail : Tail
deriving DecidableEq

/-- `json.Decoder.Token`: pop the next token.  On an exhausted stream it
returns `io.EOF`; on malformed bytes, a syntax error. -/
def Dec.token : Dec → Except GoErr (JTok × Dec)
  | ⟨[], .eof⟩ => .error .eof
  | ⟨[], .bad⟩ => .error .malformed
  | ⟨t :: ts, tl⟩ => .ok (t, ⟨ts, tl⟩)

/-- `json.Decoder.More`: reports whether another element follows in the
current array or object, i.e. whether the next byte is neither a closing
delimiter nor end-of-stream. -/
def Dec.more : Dec → Bool
  | ⟨[], .eof⟩ => false
  | ⟨[], .bad⟩ => true
  | ⟨t :: _, _⟩ => !(t = JTok.rbrack || t = JTok.rbrace)

mutual

/-- Serialization of a JSON value into decoder tokens. -/
def tokenize : Jval → List JTok
  | .null => [.null]
  | .bool b => [.bool b]
  | .num q => [.num q]
  | .str s => [.str s]
  | .arr xs => .lbrack :: tokList xs ++ [.rbrack]
  | .obj fs => .lbrace :: tokFields fs ++ [.rbrace]

/-- Token serialization of the elements of a JSON array. -/
def tokList : List Jval → List JTok
  | [] => []
  | v :: vs => tokenize v ++ tokList vs

/-- Token serialization of the fields of a JSON object. -/
def tokFields : List (String × Jval) → List JTok
  | [] => []
  | (k, v) :: fs => .str k :: (tokenize v ++ tokFields fs)

end

mutual

/-- Reading one complete JSON value off the token stream (the value-reading
core of `json.Decoder.Decode`).  The fuel argument only serves termination;
`Dec.decodeValue` supplies enough for any input. -/
def parseVal : Nat → Dec → Except GoErr (Jval × Dec)
  | 0, _ => .error .malformed
  | fuel + 1, d =>
    match d.token with
    | .error e => .error e
    | .ok (t, d) =>
      match t with
      | .null => .ok (.null, d)
      | .bool b => .ok (.bool b, d)
      | .num q => .ok (.num q, d)
      | .str s => .ok (.str s, d)
      | .lbrack => parseArr fuel d []
      | .lbrace => parseObj fuel d []
      | .rbrack => .error .malformed
      | .rbrace => .error .malformed

/-- Reading the remaining elements of a JSON array. -/
def parseArr : Nat → Dec → List Jval → Except GoErr (Jval × Dec)
  | 0, _, _ => .error .malformed
  | fuel + 1, d, acc =>
    if d.more then
      match parseVal fuel d with
      | .error e => .error e
      | .ok (v, d) => parseArr fuel d (acc ++ [v])
    else
      match d.token with
      | .error e => .error e
      | .ok (t, d) => if t = JTok.rbrack then .ok (.arr acc, d) else .error .malformed

/-- Reading the remaining fields of a JSON object. -/
def parseObj : Nat → Dec → List (String × Jval) → Except GoErr (Jval × Dec)
  | 0, _, _ => .error .malformed
  | fuel + 1, d, acc =>
    if d.more then
      match d.token with
      | .error e => .error e
      | .ok (JTok.str k, d) =>
        match parseVal fuel d with
        | .error e => .error e
        | .ok (v, d) => parseObj fuel d (acc ++ [(k, v)])
      | .ok (_, _) => .error .malformed
    else
      match d.token with
      | .error e => .error e
      | .ok (t, d) => if t = JTok.rbrace then .ok (.obj acc, d) else .error .malformed

end

/-- Decode one complete JSON value from the stream, as `json.Decoder.Decode`
does before binding the value to its target. -/
def Dec.decodeValue (d : Dec) : Except GoErr (Jval × Dec) :=
  parseVal (d.toks.length + 1) d

/-- Embedding of `expectTokens` (feeds.go): verifies that the given tokens
are present next in the input stream. -/
def expectTokens : Dec → List JTok → Except GoErr Dec
  | d, [] => .ok d
  | d, t :: ts =>
    match d.token with
    | .error e => .error e
    | .ok (tin, d) => if tin = t then expectTokens d ts else .error .unexpectedTok

/-- The delimiter-counting loop of `skipValue` (feeds.go): reads tokens,
tracking a nesting counter, until the counter returns to zero.  `nextDelim`
is inlined: a non-delimiter token leaves the counter unchanged. -/
def skipLoop : List JTok → Tail → Nat → Except GoErr Dec
  | ts, tl, 0 => .ok ⟨ts, tl⟩
  | [], .eof, _ + 1 => .error .eof
  | [], .bad, _ + 1 => .error .malformed
  | t :: ts, tl, nesting + 1 =>
    match t with
    | .lbrace => skipLoop ts tl (nesting + 2)
    | .lbrack => skipLoop ts tl (nesting + 2)
    | .rbrace => skipLoop ts tl nesting
    | .rbrack => skipLoop ts tl nesting
    | _ => skipLoop ts tl (nesting + 1)

/-- Embedding of `skipValue` (feeds.go): skips over the next JSON value in
the decoder.  A scalar is consumed outright; any delimiter starts the
nesting-counter loop at one. -/
def skipValue (d : Dec) : Except GoErr Dec :=
  match d.token with
  | .error e => .error e
  | .ok (t, d) =>
    match t with
    | .lbrace => skipLoop d.toks d.tail 1
    | .lbrack => skipLoop d.toks d.tail 1
    | .rbrace => skipLoop d.toks d.tail 1
    | .rbrack => skipLoop d.toks d.tail 1
    | _ => .ok d

/-- The JSON structure of a changes feed row (`changesRow` in feeds.go).
`changes` is the `[]struct{ Rev string }` field, kept as its list of
revision strings; `doc` is the raw message. -/
structure ChangesRow where
  id : String := ""
  deleted : Bool := false
  seq : Jval := .null
  changes : List String := []
  doc : Option Jval := none
  lastSeq : Bool := false

/-- Unmarshalling one element of the `changes` array into
`struct{ Rev string }`, with Go's convention that a JSON null leaves the
target untouched.  Returns the revision string and the first error. -/
def revOfValue : Jval → String × Option GoErr
  | .obj fs =>
    fs.foldl
      (fun acc kv =>
        if kv.1 = "rev" then
          match kv.2 with
          | .str s => (s, acc.2)
          | .null => acc
          | _ => (acc.1, acc.2 <|> some (.typeErr "rev"))
        else acc)
      ("", none)
  | .null => ("", none)
  | _ => ("", some (.typeErr "changes"))

/-- Unmarshalling the `changes` field (`[]struct{ Rev string }`). -/
def changesOfValue : Jval → List String × Option GoErr
  | .arr xs =>
    xs.foldl
      (fun acc v =>
        let (rev, e) := revOfValue v
        (acc.1 ++ [rev], acc.2 <|> e))
      ([], none)
  | .null => ([], none)
  | _ => ([], some (.typeErr "changes"))

/-- Unmarshalling a JSON value into a `string` struct field, Go style:
a string binds, null is a no-op, anything else is a type error (recorded
as the first error, decoding continues). -/
def bindStr (cur : String) (v : Jval) (field : String) (e : Option GoErr) :
    String × Option GoErr :=
  match v with
  | .str s => (s, e)
  | .null => (cur, e)
  | _ => (cur, e <|> some (.typeErr field))

/-- Unmarshalling a JSON value into a `bool` struct field, Go style. -/
def bindBool (cur : Bool) (v : Jval) (field : String) (e : Option GoErr) :
    Bool × Option GoErr :=
  match v with
  | .bool b => (b, e)
  | .null => (cur, e)
  | _ => (cur, e <|> some (.typeErr field))

/-- Unmarshalling a JSON value into the `changes` slice field, Go style:
null is a no-op, anything else goes through `changesOfValue`. -/
def bindChanges (cur : List String) (v : Jval) (e : Option GoErr) :
    List String × Option GoErr :=
  match v with
  | .null => (cur, e)
  | _ =>
    let (cs, e') := changesOfValue v
    (cs, e <|> e')

/-- Binding one object field to the matching `changesRow` struct field, as
Go's `encoding/json` does: a type mismatch records the first error and
decoding continues; unknown keys are ignored; JSON null leaves a field
untouched; `seq` is `interface{}` and takes any value; `doc` is a raw
message and takes any value. -/
def setRowField (acc : ChangesRow × Option GoErr) (k : String) (v : Jval) :
    ChangesRow × Option GoErr :=
  if k = "id" then
    let (x, e) := bindStr acc.1.id v "id" acc.2
    ({acc.1 with id := x}, e)
  else if k = "deleted" then
    let (x, e) := bindBool acc.1.deleted v "deleted" acc.2
    ({acc.1 with deleted := x}, e)
  else if k = "seq" then
    ({acc.1 with seq := v}, acc.2)
  else if k = "changes" then
    let (x, e) := bindChanges acc.1.changes v acc.2
    ({acc.1 with changes := x}, e)
  else if k = "doc" then
    ({acc.1 with doc := some v}, acc.2)
  else if k = "last_seq" then
    let (x, e) := bindBool acc.1.lastSeq v "last_seq" acc.2
    ({acc.1 with lastSeq := x}, e)
  else acc

/-- Unmarshalling a JSON value into `changesRow`.  A non-object (other
than null) is a type error; an object binds its fields in order with the
first error recorded. -/
def rowOfValue : Jval → ChangesRow × Option GoErr
  | .obj fs => fs.foldl (fun acc kv => setRowField acc kv.1 kv.2) ({}, none)
  | .null => ({}, none)
  | _ => ({}, some (.typeErr "changesRow"))

/-- The `dec.Decode(&row)` step of the feed parsers: read one JSON value
off the stream and unmarshal it into `changesRow`.  On any error the
feed's fields are not touched (the caller returns the error without
calling `apply`). -/
def decodeRow (d : Dec) : Except GoErr (ChangesRow × Dec) :=
  match d.decodeValue with
  | .error e => .error e
  | .ok (v, d) =>
    match rowOfValue v with
    | (_, some e) => .error e
    | (row, none) => .ok (row, d)

/-- The mutable iterator state of `ChangesFeed`.  `end_` is the Go field
`end` (a Lean keyword); `connCloseCount` counts calls to `conn.Close()`
on the underlying HTTP response body. -/
structure ChangesFeed where
  id : String := ""
  deleted : Bool := false
  seq : Jval := .null
  pending : Int := 0
  changes : List String := []
  doc : Option Jval := none
  end_ : Bool := false
  err : Option GoErr := none
  connCloseCount : Nat := 0

/-- Embedding of `changesRow.apply`: sets the row as the current event of
the feed. -/
def ChangesRow.apply (row : ChangesRow) (f : ChangesFeed) : ChangesFeed :=
  {f with seq := row.seq, id := row.id, deleted := row.deleted,
          doc := row.doc, changes := row.changes}

/-- Embedding of `ChangesFeed.reset`: resets the iterator outputs to zero. -/
def ChangesFeed.reset (f : ChangesFeed) : ChangesFeed :=
  {f with id := "", deleted := false, changes := [], doc := none}

/-- Embedding of `ChangesFeed.Close`: sets `end` and closes the connection.
The underlying `net/http` response body's `Close` returns nil and is
idempotent, so the returned error is always nil. -/
def ChangesFeed.close (f : ChangesFeed) : ChangesFeed × Option GoErr :=
  ({f with end_ := true, connCloseCount := f.connCloseCount + 1}, none)

/-- One call of the parser closure built by `ChangesFeed.contParser`:
decode a row, apply it to the feed, and end the feed if the row carries
the `last_seq` terminal marker.  Returns the updated feed, the updated
decoder, and the error returned by the closure. -/
def contStep (f : ChangesFeed) (d : Dec) : ChangesFeed × Dec × Option GoErr :=
  match decodeRow d with
  | .error e => (f, d, some e)
  | .ok (row, d) =>
    let f := row.apply f
    if row.lastSeq then ({f with end_ := true}, d, none)
    else (f, d, none)

/-- The name under which a trailing key is reported in the poll parser's
wrapped skip error (`can't skip over %q feed key`). -/
def keyName : JTok → String
  | .str s => s
  | _ => ""

/-- The trailing-keys loop of `ChangesFeed.pollParser`: after the
`results` array closes, scan the remaining top-level object keys,
decoding `last_seq` into `Seq` and `pending` into `Pending` (an `int64`,
so the value must be an integral number; null leaves it untouched), and
skipping every other key's value via `skipValue`.  The fuel only serves
termination; the caller supplies enough for any input. -/
def trailingLoop : Nat → ChangesFeed → Dec → ChangesFeed × Dec × Option GoErr
  | 0, f, d => (f, d, some .malformed)
  | fuel + 1, f, d =>
    if d.more then
      match d.token with
      | .error e => (f, d, some e)
      | .ok (key, d) =>
        if key = JTok.str "last_seq" then
          match d.decodeValue with
          | .error e => (f, d, some (.keyErr "last_seq" e))
          | .ok (v, d) => trailingLoop fuel {f with seq := v} d
        else if key = JTok.str "pending" then
          match d.decodeValue with
          | .error e => (f, d, some (.keyErr "pending" e))
          | .ok (.num q, d) =>
            if q.den = 1 then trailingLoop fuel {f with pending := q.num} d
            else (f, d, some (.keyErr "pending" (.typeErr "pending")))
          | .ok (.null, d) => trailingLoop fuel f d
          | .ok (_, d) => (f, d, some (.keyErr "pending" (.typeErr "pending")))
        else
          match skipValue d with
          | .error e => (f, d, some (.keyErr (keyName key) e))
          | .ok d => trailingLoop fuel f d
    else (f, d, none)

/-- One call of the parser closure built by `ChangesFeed.pollParser`
(after its construction already consumed `{ "results" [`): reset the
event fields; while more array elements remain, decode one row per call;
once the array is exhausted, consume the closing `]`, set `end`, and run
the trailing-keys loop. -/
def pollStep (f : ChangesFeed) (d : Dec) : ChangesFeed × Dec × Option GoErr :=
  let f := f.reset
  if d.more then
    match decodeRow d with
    | .error e => (f, d, some e)
    | .ok (row, d) => (row.apply f, d, none)
  else
    match d.token with
    | .error e => (f, d, some e)
    | .ok (t, d) =>
      if t = JTok.rbrack then
        trailingLoop (d.toks.length + 1) {f with end_ := true} d
      else (f, d, some .unexpectedTok)

/-- The feed mode selected by the `"feed"` option: poll-style
(`normal`/`longpoll`) or continuous. -/
inductive FeedMode where
  | cont : FeedMode
  | poll : FeedMode
deriving DecidableEq

/-- A `ChangesFeed` together with its decoder position and mode: the whole
state a `Next` call operates on. -/
structure ChangesState where
  f : ChangesFeed
  d : Dec
  mode : FeedMode

/-- The `f.parser()` call inside `ChangesFeed.Next`, dispatching on the
feed mode the parser closure was built for. -/
def parserStep (mode : FeedMode) (f : ChangesFeed) (d : Dec) :
    ChangesFeed × Dec × Option GoErr :=
  match mode with
  | .cont => contStep f d
  | .poll => pollStep f d

/-- Embedding of `ChangesFeed.Next`: return false at once if the feed has
ended; otherwise run the parser, record its error, close the feed if an
error occurred or the parser reached the end, and report whether a new
event is available. -/
def ChangesState.next (s : ChangesState) : Bool × ChangesState :=
  if s.f.end_ then (false, s)
  else
    let (f, d, e) := parserStep s.mode s.f s.d
    let f := {f with err := e}
    if e.isSome || f.end_ then
      let f := (f.close).1
      (false, ⟨f, d, s.mode⟩)
    else (true, ⟨f, d, s.mode⟩)

/-- `Close` on the full changes-feed state. -/
def ChangesState.close (s : ChangesState) : ChangesState × Option GoErr :=
  let (f, e) := s.f.close
  (⟨f, s.d, s.mode⟩, e)

/-- The state after `n` further `Next` calls. -/
def runNexts : Nat → ChangesState → ChangesState
  | 0, s => s
  | n + 1, s => runNexts n (s.next).2

/-- The caller-visible event fields of a `ChangesFeed`, read after each
successful `Next`. -/
structure ChangesEvent where
  id : String
  deleted : Bool
  seq : Jval
  changes : List String
  doc : Option Jval

/-- The current event exposed by a feed. -/
def ChangesFeed.event (f : ChangesFeed) : ChangesEvent :=
  ⟨f.id, f.deleted, f.seq, f.changes, f.doc⟩

/-- The event a decoded row exposes. -/
def ChangesRow.event (row : ChangesRow) : ChangesEvent :=
  ⟨row.id, row.deleted, row.seq, row.changes, row.doc⟩

/-- The results of `n` successive `Next` calls: each call's return value
paired with the event fields it leaves in the feed. -/
def traceEvents : Nat → ChangesState → List (Bool × ChangesEvent)
  | 0, _ => []
  | n + 1, s =>
    let (b, s') := s.next
    (b, s'.f.event) :: traceEvents n s'

/-- The mutable iterator state of `DBUpdatesFeed`.  `event` is the Go
field `Event` (json tag `type`), `db` the field `DB` (`db_name`). -/
structure DBUpdatesFeed where
  event : String := ""
  db : String := ""
  seq : Jval := .null
  ok : Bool := false
  end_ : Bool := false
  err : Option GoErr := none
  connCloseCount : Nat := 0

/-- Binding one object field of a `_db_updates` event to the feed's
exported fields (`dec.Decode(f)` decodes straight into the feed struct),
with the same `encoding/json` conventions as `setRowField`. -/
def setUpdField (acc : DBUpdatesFeed × Option GoErr) (k : String) (v : Jval) :
    DBUpdatesFeed × Option GoErr :=
  if k = "type" then
    let (x, e) := bindStr acc.1.event v "type" acc.2
    ({acc.1 with event := x}, e)
  else if k = "db_name" then
    let (x, e) := bindStr acc.1.db v "db_name" acc.2
    ({acc.1 with db := x}, e)
  else if k = "seq" then
    ({acc.1 with seq := v}, acc.2)
  else if k = "ok" then
    let (x, e) := bindBool acc.1.ok v "ok" acc.2
    ({acc.1 with ok := x}, e)
  else acc

/-- Unmarshalling a JSON value into the `DBUpdatesFeed` struct.  Because
Go decodes in place, fields bound before an error keep their values. -/
def updOfValue (f : DBUpdatesFeed) : Jval → DBUpdatesFeed × Option GoErr
  | .obj fs => fs.foldl (fun acc kv => setUpdField acc kv.1 kv.2) (f, none)
  | .null => (f, none)
  | _ => (f, some (.typeErr "DBUpdatesFeed"))

/-- Embedding of `DBUpdatesFeed.Close`: sets `end` and closes the
connection; the `net/http` response body's `Close` is idempotent and
returns nil. -/
def DBUpdatesFeed.close (f : DBUpdatesFeed) : DBUpdatesFeed × Option GoErr :=
  ({f with end_ := true, connCloseCount := f.connCloseCount + 1}, none)

/-- A `DBUpdatesFeed` together with its decoder position. -/
structure UpdState where
  f : DBUpdatesFeed
  d : Dec

/-- Embedding of `DBUpdatesFeed.Next`: return false at once if ended;
otherwise zero the event fields, decode the next event into the feed,
and on error (with `io.EOF` replaced by nil) close the feed. -/
def UpdState.next (s : UpdState) : Bool × UpdState :=
  if s.f.end_ then (false, s)
  else
    let f := {s.f with event := "", db := "", seq := Jval.null, ok := false}
    match s.d.decodeValue with
    | .error e =>
      let f := {f with err := match e with | .eof => none | _ => some e}
      (false, ⟨(f.close).1, s.d⟩)
    | .ok (v, d) =>
      let (f, e) := updOfValue f v
      match e with
      | some e' => (false, ⟨({f with err := some e'}.close).1, d⟩)
      | none => (true, ⟨{f with err := none}, d⟩)

/-- `Close` on the full `_db_updates` feed state. -/
def UpdState.close (s : UpdState) : UpdState × Option GoErr :=
  let (f, e) := s.f.close
  (⟨f, s.d⟩, e)

/-- The outcome of the feed-dispatch portion of `DB.Changes` once the
HTTP response body is open: either a ready feed state, or an error with
the body closed (`feed.Close()` before returning nil). -/
structure ChangesResult where
  feed : Option ChangesState
  err : Option GoErr
  bodyClosed : Bool

/-- The poll branch of `DB.Changes`: `feed.pollParser` first expects the
tokens `{`, `"results"`, `[`; on failure the feed is closed and the error
returned. -/
def pollSetup (d : Dec) : ChangesResult :=
  match expectTokens d [.lbrace, .str "results", .lbrack] with
  | .ok d => ⟨some ⟨{}, d, .poll⟩, none, false⟩
  | .error e => ⟨none, some e, true⟩

/-- Embedding of the `switch options["feed"]` dispatch of `DB.Changes`:
the arm `case nil, "normal", "longpoll"` builds the poll parser (whose
construction consumes `{ "results" [` and can fail), `"continuous"`
builds the continuous parser, and any other value is rejected with an
error naming it, after closing the feed.  An absent `"feed"` key and a
key present with a nil value both make `options["feed"]` the nil
interface in Go, so both (`none` and `some .null` here) take the first
arm. -/
def dbChanges (feedOpt : Option Jval) (d : Dec) : ChangesResult :=
  match feedOpt with
  | none => pollSetup d
  | some .null => pollSetup d
  | some (.str s) =>
    if s = "normal" ∨ s = "longpoll" then pollSetup d
    else if s = "continuous" then ⟨some ⟨{}, d, .cont⟩, none, false⟩
    else ⟨none, some (.unsupportedFeed (.str s)), true⟩
  | some v => ⟨none, some (.unsupportedFeed v), true⟩

/-- Rows whose unmarshalling succeeds. -/
def rowOk (v : Jval) : Bool := (rowOfValue v).2.isNone

/-- Rows whose unmarshalling succeeds and that do not carry the terminal
marker. -/
def goodRow (v : Jval) : Bool := (rowOfValue v).2.isNone && !(rowOfValue v).1.lastSeq

/-- Rows whose unmarshalling succeeds and that carry the terminal marker. -/
def termRow (v : Jval) : Bool := (rowOfValue v).2.isNone && (rowOfValue v).1.lastSeq

/-- Whether the trailing loop handles a key without error: `last_seq`
accepts any value, `pending` needs an integral number or null, and every
other key is skipped whatever its value. -/
def trailKeyOk (k : String) (v : Jval) : Bool :=
  if k = "last_seq" then true
  else if k = "pending" then
    match v with
    | .num q => q.den = 1
    | .null => true
    | _ => false
  else true

/-- The effect one trailing key has on the feed. -/
def applyTrailKey (f : ChangesFeed) (k : String) (v : Jval) : ChangesFeed :=
  if k = "last_seq" then {f with seq := v}
  else if k = "pending" then
    match v with
    | .num q => if q.den = 1 then {f with pending := q.num} else f
    | _ => f
  else f

/-- A concrete well-formed non-terminal row used in witnesses:
`{"seq": 1, "id": "a", "deleted": true, "changes": [{"rev": "1-a"}]}`. -/
def wRow : Jval :=
  .obj [("seq", .num 1), ("id", .str "a"), ("deleted", .bool true),
    ("changes", .arr [.obj [("rev", .str "1-a")]])]

/-- A concrete row without a `"deleted"` key:
`{"seq": "2-b", "id": "b", "changes": [{"rev": "2-b"}]}`. -/
def wRow2Fields : List (String × Jval) :=
  [("seq", .str "2-b"), ("id", .str "b"), ("changes", .arr [.obj [("rev", .str "2-b")]])]

/-- A concrete terminal row used in witnesses:
`{"seq": "9-x", "last_seq": true}`. -/
def wTerm : Jval := .obj [("seq", .str "9-x"), ("last_seq", .bool true)]

/-! ### Roundtrip lemmas: parsing the token serialization of a value -/

/-- The token serialization of a value is nonempty. -/
theorem tokenize_length_pos (v : Jval) : 1 ≤ (tokenize v).length := by
  cases v <;> simp [tokenize]

/-- The token serialization of a value never begins with a closing
delimiter, so `More` sees another element. -/
theorem more_tokenize (v : Jval) (rest : List JTok) (tl : Tail) :
    Dec.more ⟨tokenize v ++ rest, tl⟩ = true := by
  cases v <;> simp [tokenize, Dec.more]

mutual

/-- Parsing the serialization of a value consumes exactly its tokens. -/
theorem parseVal_tokenize : ∀ (v : Jval) (rest : List JTok) (tl : Tail) (fuel : Nat),
    (tokenize v).length ≤ fuel →
    parseVal fuel ⟨tokenize v ++ rest, tl⟩ = .ok (v, ⟨rest, tl⟩)
  | .null, rest, tl, fuel, hf => by
    cases fuel with
    | zero => simp [tokenize] at hf
    | succ f => simp [tokenize, parseVal, Dec.token]
  | .bool b, rest, tl, fuel, hf => by
    cases fuel with
    | zero => simp [tokenize] at hf
    | succ f => simp [tokenize, parseVal, Dec.token]
  | .num q, rest, tl, fuel, hf => by
    cases fuel with
    | zero => simp [tokenize] at hf
    | succ f => simp [tokenize, parseVal, Dec.token]
  | .str s, rest, tl, fuel, hf => by
    cases fuel with
    | zero => simp [tokenize] at hf
    | succ f => simp [tokenize, parseVal, Dec.token]
  | .arr xs, rest, tl, fuel, hf => by
    cases fuel with
    | zero => simp [tokenize] at hf
    | succ f =>
      have hlen : (tokList xs).length + 1 ≤ f := by
        simp [tokenize] at hf; omega
      have key := parseArr_tokenize xs [] rest tl f hlen
      simp only [tokenize, List.cons_append, List.append_assoc, List.cons_append] at key ⊢
      simp only [parseVal, Dec.token]
      simpa using key
  | .obj fs, rest, tl, fuel, hf => by
    cases fuel with
    | zero => simp [tokenize] at hf
    | succ f =>
      have hlen : (tokFields fs).length + 1 ≤ f := by
        simp [tokenize] at hf; omega
      have key := parseObj_tokenize fs [] rest tl f hlen
      simp only [tokenize, List.cons_append, List.append_assoc, List.cons_append] at key ⊢
      simp only [parseVal, Dec.token]
      simpa using key

/-- Parsing the serialized elements of an array up to the closing `]`. -/
theorem parseArr_tokenize : ∀ (xs acc : List Jval) (rest : List JTok) (tl : Tail) (fuel : Nat),
    (tokList xs).length + 1 ≤ fuel →
    parseArr fuel ⟨tokList xs ++ JTok.rbrack :: rest, tl⟩ acc = .ok (.arr (acc ++ xs), ⟨rest, tl⟩)
  | [], acc, rest, tl, fuel, hf => by
    cases fuel with
    | zero => omega
    | succ f => simp [tokList, parseArr, Dec.more, Dec.token]
  | v :: vs, acc, rest, tl, fuel, hf => by
    cases fuel with
    | zero => omega
    | succ f =>
      have hv : (tokenize v).length ≤ f := by
        simp [tokList] at hf; omega
      have hvs : (tokList vs).length + 1 ≤ f := by
        have : 1 ≤ (tokenize v).length := tokenize_length_pos v
        simp [tokList] at hf; omega
      have hmore : Dec.more ⟨tokenize v ++ (tokList vs ++ JTok.rbrack :: rest), tl⟩ = true :=
        more_tokenize v _ tl
      have hval := parseVal_tokenize v (tokList vs ++ JTok.rbrack :: rest) tl f hv
      have hrec := parseArr_tokenize vs (acc ++ [v]) rest tl f hvs
      simp only [tokList, List.append_assoc] at hmore ⊢
      simp only [parseArr, hmore, if_true, hval, hrec, List.append_assoc, List.cons_append,
        List.nil_append]

/-- Parsing the serialized fields of an object up to the closing `}`. -/
theorem parseObj_tokenize : ∀ (fs acc : List (String × Jval)) (rest : List JTok) (tl : Tail) (fuel : Nat),
    (tokFields fs).length + 1 ≤ fuel →
    parseObj fuel ⟨tokFields fs ++ JTok.rbrace :: rest, tl⟩ acc = .ok (.obj (acc ++ fs), ⟨rest, tl⟩)
  | [], acc, rest, tl, fuel, hf => by
    cases fuel with
    | zero => omega
    | succ f => simp [tokFields, parseObj, Dec.more, Dec.token]
  | (k, v) :: fs, acc, rest, tl, fuel, hf => by
    cases fuel with
    | zero => omega
    | succ f =>
      have hv : (tokenize v).length ≤ f := by
        simp [tokFields] at hf; omega
      have hfs : (tokFields fs).length + 1 ≤ f := by
        have : 1 ≤ (tokenize v).length := tokenize_length_pos v
        simp [tokFields] at hf; omega
      have hval := parseVal_tokenize v (tokFields fs ++ JTok.rbrace :: rest) tl f hv
      have hrec := parseObj_tokenize fs (acc ++ [(k, v)]) rest tl f hfs
      simp only [tokFields, List.cons_append, List.append_assoc] at hval hrec ⊢
      simp [parseObj, Dec.more, Dec.token, hval, hrec]

end

/-- `decodeValue` on the serialization of a value: the self-supplied fuel
is always sufficient. -/
theorem decodeValue_tokenize (v : Jval) (rest : List JTok) (tl : Tail) :
    Dec.decodeValue ⟨tokenize v ++ rest, tl⟩ = .ok (v, ⟨rest, tl⟩) := by
  apply parseVal_tokenize
  simp only [List.length_append]
  omega

/-- One step of the skip loop on an opening brace or bracket. -/
theorem skipLoop_open (t : JTok) (ts : List JTok) (tl : Tail) (n : Nat)
    (h : t = JTok.lbrace ∨ t = JTok.lbrack) :
    skipLoop (t :: ts) tl (n + 1) = skipLoop ts tl (n + 1 + 1) := by
  cases h <;> subst_vars <;> simp [skipLoop, Nat.add_assoc]

/-- One step of the skip loop on a closing brace or bracket. -/
theorem skipLoop_close (t : JTok) (ts : List JTok) (tl : Tail) (n : Nat)
    (h : t = JTok.rbrace ∨ t = JTok.rbrack) :
    skipLoop (t :: ts) tl (n + 1) = skipLoop ts tl n := by
  cases h <;> subst_vars <;> simp [skipLoop]

mutual

/-- The skip loop consumes the serialization of a whole value without
changing a positive nesting counter. -/
theorem skipLoop_tokenize : ∀ (v : Jval) (ts : List JTok) (tl : Tail) (n : Nat),
    skipLoop (tokenize v ++ ts) tl (n + 1) = skipLoop ts tl (n + 1)
  | .null, ts, tl, n => by simp [tokenize, skipLoop]
  | .bool b, ts, tl, n => by simp [tokenize, skipLoop]
  | .num q, ts, tl, n => by simp [tokenize, skipLoop]
  | .str s, ts, tl, n => by simp [tokenize, skipLoop]
  | .arr xs, ts, tl, n => by
    have harr : tokenize (Jval.arr xs) ++ ts = JTok.lbrack :: (tokList xs ++ JTok.rbrack :: ts) := by
      simp [tokenize]
    rw [harr, skipLoop_open _ _ _ _ (Or.inr rfl),
      skipLoop_tokList xs (JTok.rbrack :: ts) tl (n + 1),
      skipLoop_close _ _ _ _ (Or.inr rfl)]
  | .obj fs, ts, tl, n => by
    have hobj : tokenize (Jval.obj fs) ++ ts = JTok.lbrace :: (tokFields fs ++ JTok.rbrace :: ts) := by
      simp [tokenize]
    rw [hobj, skipLoop_open _ _ _ _ (Or.inl rfl),
      skipLoop_tokFields fs (JTok.rbrace :: ts) tl (n + 1),
      skipLoop_close _ _ _ _ (Or.inl rfl)]

/-- The skip loop consumes serialized array elements without changing a
positive nesting counter. -/
theorem skipLoop_tokList : ∀ (xs : List Jval) (ts : List JTok) (tl : Tail) (n : Nat),
    skipLoop (tokList xs ++ ts) tl (n + 1) = skipLoop ts tl (n + 1)
  | [], ts, tl, n => by simp [tokList]
  | v :: vs, ts, tl, n => by
    have hl : tokList (v :: vs) ++ ts = tokenize v ++ (tokList vs ++ ts) := by
      simp [tokList]
    rw [hl, skipLoop_tokenize v (tokList vs ++ ts) tl n, skipLoop_tokList vs ts tl n]

/-- The skip loop consumes serialized object fields without changing a
positive nesting counter. -/
theorem skipLoop_tokFields : ∀ (fs : List (String × Jval)) (ts : List JTok) (tl : Tail) (n : Nat),
    skipLoop (tokFields fs ++ ts) tl (n + 1) = skipLoop ts tl (n + 1)
  | [], ts, tl, n => by simp [tokFields]
  | (k, v) :: fs, ts, tl, n => by
    have hf : tokFields ((k, v) :: fs) ++ ts = JTok.str k :: (tokenize v ++ (tokFields fs ++ ts)) := by
      simp [tokFields]
    rw [hf, show skipLoop (JTok.str k :: (tokenize v ++ (tokFields fs ++ ts))) tl (n + 1)
        = skipLoop (tokenize v ++ (tokFields fs ++ ts)) tl (n + 1) from by simp [skipLoop],
      skipLoop_tokenize v (tokFields fs ++ ts) tl n, skipLoop_tokFields fs ts tl n]

end

/-- `skipValue` skips the serialization of any JSON value — scalar,
object or array of any nesting depth — and leaves the decoder right
after it. -/
theorem skipValue_tokenize (v : Jval) (rest : List JTok) (tl : Tail) :
    skipValue ⟨tokenize v ++ rest, tl⟩ = .ok ⟨rest, tl⟩ := by
  cases v with
  | arr xs =>
    have harr : tokenize (Jval.arr xs) ++ rest
        = JTok.lbrack :: (tokList xs ++ JTok.rbrack :: rest) := by
      simp [tokenize]
    rw [harr]
    show skipLoop (tokList xs ++ JTok.rbrack :: rest) tl 1 = .ok ⟨rest, tl⟩
    rw [skipLoop_tokList xs (JTok.rbrack :: rest) tl 0, skipLoop_close _ _ _ _ (Or.inr rfl)]
    simp [skipLoop]
  | obj fs =>
    have hobj : tokenize (Jval.obj fs) ++ rest
        = JTok.lbrace :: (tokFields fs ++ JTok.rbrace :: rest) := by
      simp [tokenize]
    rw [hobj]
    show skipLoop (tokFields fs ++ JTok.rbrace :: rest) tl 1 = .ok ⟨rest, tl⟩
    rw [skipLoop_tokFields fs (JTok.rbrace :: rest) tl 0, skipLoop_close _ _ _ _ (Or.inl rfl)]
    simp [skipLoop]
  | _ => simp [tokenize, skipValue, Dec.token]

/-! ### Step lemmas for the feed iterators -/

/-- `decodeRow` on the serialization of a well-formed row. -/
theorem decodeRow_tokenize (v : Jval) (rest : List JTok) (tl : Tail)
    (h : rowOk v = true) :
    decodeRow ⟨tokenize v ++ rest, tl⟩ = .ok ((rowOfValue v).1, ⟨rest, tl⟩) := by
  have h' : (rowOfValue v).2 = none := by
    simpa [rowOk, Option.isNone_iff_eq_none] using h
  cases hrv : rowOfValue v with
  | mk row e =>
    cases e with
    | none => simp [decodeRow, decodeValue_tokenize, hrv]
    | some e => rw [hrv] at h'; exact absurd h' (by simp)

/-- A `Next` call on an active continuous feed whose stream starts with a
well-formed non-terminal row: the row is applied and true returned. -/
theorem next_cont_row (f : ChangesFeed) (v : Jval) (rest : List JTok) (tl : Tail)
    (hend : f.end_ = false) (hrow : goodRow v = true) :
    ChangesState.next ⟨f, ⟨tokenize v ++ rest, tl⟩, .cont⟩
      = (true, ⟨{(rowOfValue v).1.apply f with err := none}, ⟨rest, tl⟩, .cont⟩) := by
  have hok : rowOk v = true := by
    simp only [goodRow, Bool.and_eq_true] at hrow
    simpa [rowOk] using hrow.1
  have hlast : (rowOfValue v).1.lastSeq = false := by
    simp only [goodRow, Bool.and_eq_true, Bool.not_eq_eq_eq_not, Bool.not_true] at hrow
    simpa using hrow.2
  simp [ChangesState.next, hend, parserStep, contStep, decodeRow_tokenize v rest tl hok,
    hlast, ChangesRow.apply]

/-- A `Next` call on an active continuous feed whose stream starts with a
well-formed terminal row: the row is applied (capturing its sequence
token), the feed ends cleanly, and the connection is closed. -/
theorem next_cont_term (f : ChangesFeed) (v : Jval) (rest : List JTok) (tl : Tail)
    (hend : f.end_ = false) (hrow : termRow v = true) :
    ChangesState.next ⟨f, ⟨tokenize v ++ rest, tl⟩, .cont⟩
      = (false, ⟨{(rowOfValue v).1.apply f with
          err := none,
          end_ := true,
          connCloseCount := f.connCloseCount + 1}, ⟨rest, tl⟩, .cont⟩) := by
  have hok : rowOk v = true := by
    simp only [termRow, Bool.and_eq_true] at hrow
    simpa [rowOk] using hrow.1
  have hlast : (rowOfValue v).1.lastSeq = true := by
    simp only [termRow, Bool.and_eq_true] at hrow
    simpa using hrow.2
  simp [ChangesState.next, hend, parserStep, contStep, decodeRow_tokenize v rest tl hok,
    hlast, ChangesRow.apply, ChangesFeed.close]

/-- Applying a row after a reset is the same as applying it directly:
`apply` overwrites every field that `reset` clears. -/
theorem apply_reset (row : ChangesRow) (f : ChangesFeed) :
    row.apply f.reset = row.apply f := rfl

/-- A `Next` call on an active poll feed whose stream starts with a
well-formed row: the row is applied and true returned. -/
theorem next_poll_row (f : ChangesFeed) (v : Jval) (rest : List JTok) (tl : Tail)
    (hend : f.end_ = false) (hrow : rowOk v = true) :
    ChangesState.next ⟨f, ⟨tokenize v ++ rest, tl⟩, .poll⟩
      = (true, ⟨{(rowOfValue v).1.apply f with err := none}, ⟨rest, tl⟩, .poll⟩) := by
  have hmore := more_tokenize v rest tl
  simp [ChangesState.next, hend, parserStep, pollStep, hmore,
    decodeRow_tokenize v rest tl hrow, apply_reset, ChangesRow.apply, ChangesFeed.reset]

/-- The trailing loop over a serialized object remainder: every handled
field is folded into the feed, unknown keys are skipped whatever their
values, and the loop stops (successfully, without consuming it) at the
closing `}`. -/
theorem trailingLoop_fields :
    ∀ (fields : List (String × Jval)) (f : ChangesFeed) (rest : List JTok) (tl : Tail)
      (fuel : Nat),
    (tokFields fields).length < fuel →
    fields.all (fun kv => trailKeyOk kv.1 kv.2) = true →
    trailingLoop fuel f ⟨tokFields fields ++ JTok.rbrace :: rest, tl⟩
      = (fields.foldl (fun f kv => applyTrailKey f kv.1 kv.2) f, ⟨JTok.rbrace :: rest, tl⟩, none)
  | [], f, rest, tl, fuel, hf, _ => by
    cases fuel with
    | zero => omega
    | succ n => simp [tokFields, trailingLoop, Dec.more]
  | (k, v) :: fields, f, rest, tl, fuel, hf, hok => by
    cases fuel with
    | zero => omega
    | succ n =>
      have hn : (tokFields fields).length < n := by
        have h1 := tokenize_length_pos v
        simp only [tokFields, List.length_cons, List.length_append] at hf
        omega
      have hkok : trailKeyOk k v = true := by
        simp only [List.all_cons, Bool.and_eq_true] at hok
        exact hok.1
      have hrest : List.all fields (fun kv => trailKeyOk kv.1 kv.2) = true := by
        simp only [List.all_cons, Bool.and_eq_true] at hok
        exact hok.2
      have hcons : tokFields ((k, v) :: fields) ++ JTok.rbrace :: rest
          = JTok.str k :: (tokenize v ++ (tokFields fields ++ JTok.rbrace :: rest)) := by
        simp [tokFields]
      rw [hcons]
      by_cases hk1 : k = "last_seq"
      · subst hk1
        rw [show trailingLoop (n + 1) f
              ⟨JTok.str "last_seq" :: (tokenize v ++ (tokFields fields ++ JTok.rbrace :: rest)), tl⟩
            = trailingLoop n {f with seq := v} ⟨tokFields fields ++ JTok.rbrace :: rest, tl⟩
          from by simp [trailingLoop, Dec.more, Dec.token, decodeValue_tokenize]]
        rw [trailingLoop_fields fields {f with seq := v} rest tl n hn hrest]
        simp [applyTrailKey]
      · by_cases hk2 : k = "pending"
        · subst hk2
          cases v with
          | num q =>
            have hden : q.den = 1 := by simpa [trailKeyOk] using hkok
            rw [show trailingLoop (n + 1) f
                  ⟨JTok.str "pending" :: (tokenize (Jval.num q) ++ (tokFields fields ++ JTok.rbrace :: rest)), tl⟩
                = trailingLoop n {f with pending := q.num} ⟨tokFields fields ++ JTok.rbrace :: rest, tl⟩
              from by simp [trailingLoop, Dec.more, Dec.token, decodeValue_tokenize, hden]]
            rw [trailingLoop_fields fields {f with pending := q.num} rest tl n hn hrest]
            simp [applyTrailKey, hden]
          | null =>
            rw [show trailingLoop (n + 1) f
                  ⟨JTok.str "pending" :: (tokenize Jval.null ++ (tokFields fields ++ JTok.rbrace :: rest)), tl⟩
                = trailingLoop n f ⟨tokFields fields ++ JTok.rbrace :: rest, tl⟩
              from by simp [trailingLoop, Dec.more, Dec.token, decodeValue_tokenize]]
            rw [trailingLoop_fields fields f rest tl n hn hrest]
            simp [applyTrailKey]
          | bool b => simp [trailKeyOk] at hkok
          | str s => simp [trailKeyOk] at hkok
          | arr xs => simp [trailKeyOk] at hkok
          | obj ofs => simp [trailKeyOk] at hkok
        · rw [show trailingLoop (n + 1) f
                ⟨JTok.str k :: (tokenize v ++ (tokFields fields ++ JTok.rbrace :: rest)), tl⟩
              = trailingLoop n f ⟨tokFields fields ++ JTok.rbrace :: rest, tl⟩
            from by simp [trailingLoop, Dec.more, Dec.token, hk1, hk2, skipValue_tokenize]]
          rw [trailingLoop_fields fields f rest tl n hn hrest]
          simp [applyTrailKey, hk1, hk2]

/-- A `Next` call on an active poll feed positioned at the end of the
`results` array: the event fields are reset, the closing `]` is consumed,
the trailing keys are folded into the feed, the feed ends cleanly and the
connection is closed.  The closing `}` is left unread, as in the source. -/
theorem next_poll_end (f : ChangesFeed) (fields : List (String × Jval))
    (rest : List JTok) (tl : Tail)
    (hend : f.end_ = false)
    (hok : fields.all (fun kv => trailKeyOk kv.1 kv.2) = true) :
    ChangesState.next ⟨f, ⟨JTok.rbrack :: (tokFields fields ++ JTok.rbrace :: rest), tl⟩, .poll⟩
      = (false,
        ⟨{(fields.foldl (fun f kv => applyTrailKey f kv.1 kv.2) {f.reset with end_ := true}) with
            err := none,
            end_ := true,
            connCloseCount :=
              (fields.foldl (fun f kv => applyTrailKey f kv.1 kv.2)
                {f.reset with end_ := true}).connCloseCount + 1},
          ⟨JTok.rbrace :: rest, tl⟩, .poll⟩) := by
  have hfuel : (tokFields fields).length < (tokFields fields ++ JTok.rbrace :: rest).length + 1 := by
    simp only [List.length_append, List.length_cons]
    omega
  have key := trailingLoop_fields fields {f.reset with end_ := true}
    rest tl ((tokFields fields ++ JTok.rbrace :: rest).length + 1) hfuel hok
  simp only [List.length_append, List.length_cons] at key
  have hstep : pollStep f ⟨JTok.rbrack :: (tokFields fields ++ JTok.rbrace :: rest), tl⟩
      = (fields.foldl (fun f kv => applyTrailKey f kv.1 kv.2) {f.reset with end_ := true},
        ⟨JTok.rbrace :: rest, tl⟩, none) := by
    simp only [pollStep, Dec.more, Dec.token]
    simp [key]
  have hendfold : (fields.foldl (fun f kv => applyTrailKey f kv.1 kv.2)
      {f.reset with end_ := true}).end_ = true := by
    have base : ∀ (g : ChangesFeed) (fs : List (String × Jval)), g.end_ = true →
        (fs.foldl (fun f kv => applyTrailKey f kv.1 kv.2) g).end_ = true := by
      intro g fs
      induction fs generalizing g with
      | nil => intro h; simpa using h
      | cons kv fs ih =>
        intro h
        simp only [List.foldl_cons]
        apply ih
        simp only [applyTrailKey]
        split_ifs with h1 h2
        · simpa using h
        · cases kv.2 <;> simp [h] <;> split_ifs <;> simpa using h
        · simpa using h
    exact base _ _ rfl
  simp [ChangesState.next, hend, parserStep, hstep, hendfold, ChangesFeed.close]

/-- Once a changes feed has ended, `Next` returns false and leaves the
whole state — event fields, error, decoder — untouched. -/
theorem next_ended (s : ChangesState) (h : s.f.end_ = true) : s.next = (false, s) := by
  simp [ChangesState.next, h]

/-- Once a `_db_updates` feed has ended, `Next` returns false and leaves
the whole state untouched. -/
theorem upd_next_ended (u : UpdState) (h : u.f.end_ = true) : u.next = (false, u) := by
  simp [UpdState.next, h]

/-- Running any number of `Next` calls on an ended feed is the identity. -/
theorem runNexts_ended (k : Nat) (s : ChangesState) (h : s.f.end_ = true) :
    runNexts k s = s := by
  induction k with
  | zero => rfl
  | succ n ih => rw [runNexts, next_ended s h]; exact ih

/-- The event trace of a list of well-formed rows, for either feed mode:
every row produces one `Advance()==true` call exposing exactly that row's
fields, in stream order, and the iteration state afterwards sits at the
rest of the stream with the last row applied. -/
theorem trace_rows :
    ∀ (rows : List Jval) (mode : FeedMode) (f : ChangesFeed) (rest : List JTok) (tl : Tail),
    f.end_ = false →
    (rows.all (if mode = .cont then goodRow else rowOk)) = true →
    traceEvents rows.length ⟨f, ⟨tokList rows ++ rest, tl⟩, mode⟩
        = rows.map (fun v => (true, (rowOfValue v).1.event))
      ∧ runNexts rows.length ⟨f, ⟨tokList rows ++ rest, tl⟩, mode⟩
        = ⟨rows.foldl (fun f v => {(rowOfValue v).1.apply f with err := none}) f, ⟨rest, tl⟩, mode⟩
  | [], mode, f, rest, tl, hend, hok => by
    constructor
    · simp [tokList, traceEvents]
    · simp [tokList, runNexts]
  | v :: rows, mode, f, rest, tl, hend, hok => by
    have hv : (if mode = FeedMode.cont then goodRow else rowOk) v = true := by
      simp only [List.all_cons, Bool.and_eq_true] at hok
      exact hok.1
    have hrows : (rows.all (if mode = FeedMode.cont then goodRow else rowOk)) = true := by
      simp only [List.all_cons, Bool.and_eq_true] at hok
      exact hok.2
    have hnext : ChangesState.next ⟨f, ⟨tokenize v ++ (tokList rows ++ rest), tl⟩, mode⟩
        = (true, ⟨{(rowOfValue v).1.apply f with err := none}, ⟨tokList rows ++ rest, tl⟩, mode⟩) := by
      cases mode with
      | cont => exact next_cont_row f v (tokList rows ++ rest) tl hend (by simpa using hv)
      | poll => exact next_poll_row f v (tokList rows ++ rest) tl hend (by simpa using hv)
    have hend' : ({(rowOfValue v).1.apply f with err := none} : ChangesFeed).end_ = false := by
      simpa [ChangesRow.apply] using hend
    have ih := trace_rows rows mode {(rowOfValue v).1.apply f with err := none} rest tl hend' hrows
    have hl : tokList (v :: rows) ++ rest = tokenize v ++ (tokList rows ++ rest) := by
      simp [tokList]
    constructor
    · rw [hl]
      simp only [List.length_cons, traceEvents, hnext, List.map_cons]
      refine congrArg₂ _ ?_ ih.1
      simp [ChangesFeed.event, ChangesRow.event, ChangesRow.apply]
    · rw [hl]
      simp only [List.length_cons, runNexts, hnext]
      exact ih.2

/-- Binding a field whose key is not `"deleted"` leaves the row's
`deleted` flag unchanged. -/
theorem setRowField_deleted (acc : ChangesRow × Option GoErr) (k : String) (v : Jval)
    (h : k ≠ "deleted") : ((setRowField acc k v).1).deleted = acc.1.deleted := by
  simp only [setRowField, h, if_false]
  split_ifs <;> simp

/-- An object with no `"deleted"` key unmarshals to a row with
`deleted = false`: the zero value is kept, so the previous row's value
cannot leak through an omitted key. -/
theorem rowOfValue_no_deleted (fs : List (String × Jval))
    (h : fs.all (fun kv => kv.1 ≠ "deleted") = true) :
    ((rowOfValue (.obj fs)).1).deleted = false := by
  suffices key : ∀ (acc : ChangesRow × Option GoErr),
      (fs.foldl (fun acc kv => setRowField acc kv.1 kv.2) acc).1.deleted = acc.1.deleted by
    simpa [rowOfValue] using key ({}, none)
  induction fs with
  | nil => intro acc; rfl
  | cons kv fs ih =>
    intro acc
    simp only [List.all_cons, Bool.and_eq_true, decide_eq_true_eq] at h
    simp only [List.foldl_cons]
    rw [ih (by simpa using h.2), setRowField_deleted acc kv.1 kv.2 h.1]

/-- A parser step never touches the connection: neither `contStep` nor
`pollStep` (including its trailing loop) changes the close counter or the
recorded error. -/
theorem parserStep_conn (mode : FeedMode) (f : ChangesFeed) (d : Dec) :
    (parserStep mode f d).1.connCloseCount = f.connCloseCount := by
  have trail : ∀ (fuel : Nat) (g : ChangesFeed) (d' : Dec),
      (trailingLoop fuel g d').1.connCloseCount = g.connCloseCount := by
    intro fuel
    induction fuel with
    | zero => intro g d'; rfl
    | succ n ih =>
      intro g d'
      rw [trailingLoop]
      split_ifs with hm
      · cases htok : d'.token with
        | error e => rfl
        | ok td =>
          obtain ⟨key, d''⟩ := td
          simp only []
          split_ifs with h1 h2
          · cases hdv : d''.decodeValue with
            | error e => rfl
            | ok vd => obtain ⟨v, d3⟩ := vd; exact ih _ _
          · cases hdv : d''.decodeValue with
            | error e => rfl
            | ok vd =>
              obtain ⟨v, d3⟩ := vd
              cases v with
              | null => exact ih _ _
              | bool b => rfl
              | num q => simp only []; split_ifs <;> first | exact ih _ _ | rfl
              | str s2 => rfl
              | arr xs => rfl
              | obj ofs => rfl
          · cases hsv : skipValue d'' with
            | error e => rfl
            | ok d3 => exact ih _ _
      · rfl
  cases mode with
  | cont =>
    simp only [parserStep, contStep]
    cases decodeRow d with
    | error e => rfl
    | ok rd =>
      obtain ⟨row, d'⟩ := rd
      simp only [ChangesRow.apply]
      split_ifs <;> rfl
  | poll =>
    simp only [parserStep, pollStep]
    split_ifs with hm
    · cases decodeRow d with
      | error e => rfl
      | ok rd => obtain ⟨row, d'⟩ := rd; rfl
    · cases d.token with
      | error e => rfl
      | ok td =>
        obtain ⟨t, d'⟩ := td
        simp only []
        split_ifs with ht
        · exact trail _ _ _
        · rfl

/-- The trace of `m + n` calls splits at the state after `m` calls. -/
theorem traceEvents_add (m n : Nat) (s : ChangesState) :
    traceEvents (m + n) s = traceEvents m s ++ traceEvents n (runNexts m s) := by
  induction m generalizing s with
  | zero => simp [traceEvents, runNexts]
  | succ m ih =>
    rw [show m + 1 + n = (m + n) + 1 from by omega]
    rw [traceEvents, traceEvents, runNexts]
    simp only [List.cons_append]
    exact congrArg _ (ih _)

/-- `n + 1` calls are `n` calls followed by one more. -/
theorem runNexts_succ (n : Nat) (s : ChangesState) :
    runNexts (n + 1) s = ((runNexts n s).next).2 := by
  induction n generalizing s with
  | zero => rfl
  | succ n ih => rw [runNexts, ih, runNexts]

/-- Applying a sequence of rows leaves the `end`, `pending` and connection
state of the feed untouched. -/
theorem foldRows_fixed (rows : List Jval) (f : ChangesFeed) :
    let g := rows.foldl (fun f v => {(rowOfValue v).1.apply f with err := none}) f
    g.end_ = f.end_ ∧ g.pending = f.pending ∧ g.connCloseCount = f.connCloseCount := by
  induction rows generalizing f with
  | nil => exact ⟨rfl, rfl, rfl⟩
  | cons v rows ih =>
    simpa [ChangesRow.apply] using ih {(rowOfValue v).1.apply f with err := none}

/-! ### The claims -/

/-- C1: the spec says a continuous-mode `ChangesFeed` whose stream ends by
clean connection closure (EOF) before a terminal marker reports a clean
end (`Next` false, `Err()` nil).  The code violates this: `contParser`
returns `dec.Decode`'s `io.EOF` unchanged and `ChangesFeed.Next` records
it in `f.err` without the `io.EOF → nil` replacement that
`DBUpdatesFeed.Next` performs, so `Err()` returns `io.EOF`.  Evaluating
the model at the failing input — a continuous feed whose stream is
cleanly closed with no terminal row — shows `Next` returns false but the
recorded error is `io.EOF`, not nil. -/
theorem c1_continuous_eof_surfaces_error :
    (ChangesState.next ⟨{}, ⟨[], .eof⟩, .cont⟩).1 = false
    ∧ (ChangesState.next ⟨{}, ⟨[], .eof⟩, .cont⟩).2.f.err = some GoErr.eof
    ∧ some GoErr.eof ≠ (none : Option GoErr) := by
  refine ⟨rfl, rfl, by simp⟩

/-- C2: a continuous stream of `n` well-formed non-terminal rows followed
by a terminal row (`last_seq: true`) yields exactly `n` `Next()==true`
calls exposing those rows' fields in stream order, then `Next()` returns
false with `Err()==nil`, and afterwards `Seq` holds the sequence token
carried by the terminal row. -/
theorem c2_continuous_terminal_trace (rows : List Jval) (term : Jval) (tl : Tail)
    (hrows : rows.all goodRow = true) (hterm : termRow term = true) :
    traceEvents (rows.length + 1) ⟨{}, ⟨tokList rows ++ tokenize term, tl⟩, .cont⟩
      = rows.map (fun v => (true, (rowOfValue v).1.event))
        ++ [(false, (rowOfValue term).1.event)]
    ∧ (runNexts (rows.length + 1) ⟨{}, ⟨tokList rows ++ tokenize term, tl⟩, .cont⟩).f.err = none
    ∧ (runNexts (rows.length + 1) ⟨{}, ⟨tokList rows ++ tokenize term, tl⟩, .cont⟩).f.seq
      = (rowOfValue term).1.seq
    ∧ (runNexts (rows.length + 1) ⟨{}, ⟨tokList rows ++ tokenize term, tl⟩, .cont⟩).f.end_
      = true := by
  have tr := trace_rows rows .cont {} (tokenize term) tl rfl (by simpa using hrows)
  have hFend : (rows.foldl (fun f v => {(rowOfValue v).1.apply f with err := none})
      ({} : ChangesFeed)).end_ = false :=
    (foldRows_fixed rows {}).1
  have hlast := next_cont_term
    (rows.foldl (fun f v => {(rowOfValue v).1.apply f with err := none}) ({} : ChangesFeed))
    term [] tl hFend hterm
  rw [List.append_nil] at hlast
  constructor
  · rw [traceEvents_add rows.length 1, tr.1, tr.2]
    refine congrArg _ ?_
    rw [traceEvents, hlast]
    simp [traceEvents, ChangesFeed.event, ChangesRow.event, ChangesRow.apply]
  · rw [runNexts_succ, tr.2, hlast]
    exact ⟨rfl, rfl, rfl⟩

/-- C3: a well-formed poll response whose `results` array holds `n` rows
gives exactly `n` `Next()==true` calls (one row each, in array order),
then one `Next()==false` call with `Err()==nil` that populates `Seq` from
the trailing `last_seq` key and `Pending` from the trailing `pending`
key; with `n = 0` the very first call goes straight to the trailing-keys
phase and reports end-of-stream. -/
theorem c3_poll_trace (rows : List Jval) (seqv : Jval) (p : Int) (rest : List JTok) (tl : Tail)
    (hrows : rows.all rowOk = true) :
    traceEvents (rows.length + 1) ⟨{}, ⟨tokList rows ++ JTok.rbrack ::
        (tokFields [("last_seq", seqv), ("pending", .num (p : Rat))] ++ JTok.rbrace :: rest),
        tl⟩, .poll⟩
      = rows.map (fun v => (true, (rowOfValue v).1.event))
        ++ [(false, ⟨"", false, seqv, [], none⟩)]
    ∧ (runNexts (rows.length + 1) ⟨{}, ⟨tokList rows ++ JTok.rbrack ::
        (tokFields [("last_seq", seqv), ("pending", .num (p : Rat))] ++ JTok.rbrace :: rest),
        tl⟩, .poll⟩).f.err = none
    ∧ (runNexts (rows.length + 1) ⟨{}, ⟨tokList rows ++ JTok.rbrack ::
        (tokFields [("last_seq", seqv), ("pending", .num (p : Rat))] ++ JTok.rbrace :: rest),
        tl⟩, .poll⟩).f.seq = seqv
    ∧ (runNexts (rows.length + 1) ⟨{}, ⟨tokList rows ++ JTok.rbrack ::
        (tokFields [("last_seq", seqv), ("pending", .num (p : Rat))] ++ JTok.rbrace :: rest),
        tl⟩, .poll⟩).f.pending = p
    ∧ (runNexts (rows.length + 1) ⟨{}, ⟨tokList rows ++ JTok.rbrack ::
        (tokFields [("last_seq", seqv), ("pending", .num (p : Rat))] ++ JTok.rbrace :: rest),
        tl⟩, .poll⟩).f.end_ = true := by
  have tr := trace_rows rows .poll {}
    (JTok.rbrack :: (tokFields [("last_seq", seqv), ("pending", .num (p : Rat))]
      ++ JTok.rbrace :: rest)) tl rfl (by simpa using hrows)
  have hFend : (rows.foldl (fun f v => {(rowOfValue v).1.apply f with err := none})
      ({} : ChangesFeed)).end_ = false :=
    (foldRows_fixed rows {}).1
  have hok : ([("last_seq", seqv), ("pending", Jval.num (p : Rat))].all
      (fun kv => trailKeyOk kv.1 kv.2)) = true := by
    simp [trailKeyOk]
  have hlast := next_poll_end
    (rows.foldl (fun f v => {(rowOfValue v).1.apply f with err := none}) ({} : ChangesFeed))
    [("last_seq", seqv), ("pending", .num (p : Rat))] rest tl hFend hok
  constructor
  · rw [traceEvents_add rows.length 1, tr.1, tr.2]
    refine congrArg _ ?_
    rw [traceEvents, hlast]
    simp [traceEvents, ChangesFeed.event, ChangesFeed.reset, applyTrailKey]
  · rw [runNexts_succ, tr.2, hlast]
    refine ⟨rfl, ?_, ?_, rfl⟩
    · simp [applyTrailKey]
    · simp [applyTrailKey]

/-- C4: unknown top-level keys after the `results` array — whatever their
values: scalars, nested objects or nested arrays of any depth — are
skipped without a decode error, and the recognized keys around them
(`last_seq` before, `pending` after) are still decoded correctly.  The
`results` rows themselves are also unaffected. -/
theorem c4_poll_unknown_keys_skipped (rows : List Jval) (seqv : Jval) (p : Int)
    (k : String) (v : Jval) (rest : List JTok) (tl : Tail)
    (hrows : rows.all rowOk = true)
    (hk1 : k ≠ "last_seq") (hk2 : k ≠ "pending") :
    traceEvents (rows.length + 1) ⟨{}, ⟨tokList rows ++ JTok.rbrack ::
        (tokFields [("last_seq", seqv), (k, v), ("pending", .num (p : Rat))]
          ++ JTok.rbrace :: rest), tl⟩, .poll⟩
      = rows.map (fun v => (true, (rowOfValue v).1.event))
        ++ [(false, ⟨"", false, seqv, [], none⟩)]
    ∧ (runNexts (rows.length + 1) ⟨{}, ⟨tokList rows ++ JTok.rbrack ::
        (tokFields [("last_seq", seqv), (k, v), ("pending", .num (p : Rat))]
          ++ JTok.rbrace :: rest), tl⟩, .poll⟩).f.err = none
    ∧ (runNexts (rows.length + 1) ⟨{}, ⟨tokList rows ++ JTok.rbrack ::
        (tokFields [("last_seq", seqv), (k, v), ("pending", .num (p : Rat))]
          ++ JTok.rbrace :: rest), tl⟩, .poll⟩).f.seq = seqv
    ∧ (runNexts (rows.length + 1) ⟨{}, ⟨tokList rows ++ JTok.rbrack ::
        (tokFields [("last_seq", seqv), (k, v), ("pending", .num (p : Rat))]
          ++ JTok.rbrace :: rest), tl⟩, .poll⟩).f.pending = p := by
  have tr := trace_rows rows .poll {}
    (JTok.rbrack :: (tokFields [("last_seq", seqv), (k, v), ("pending", .num (p : Rat))]
      ++ JTok.rbrace :: rest)) tl rfl (by simpa using hrows)
  have hFend : (rows.foldl (fun f v => {(rowOfValue v).1.apply f with err := none})
      ({} : ChangesFeed)).end_ = false :=
    (foldRows_fixed rows {}).1
  have hok : ([("last_seq", seqv), (k, v), ("pending", Jval.num (p : Rat))].all
      (fun kv => trailKeyOk kv.1 kv.2)) = true := by
    simp [trailKeyOk, hk2]
  have hlast := next_poll_end
    (rows.foldl (fun f v => {(rowOfValue v).1.apply f with err := none}) ({} : ChangesFeed))
    [("last_seq", seqv), (k, v), ("pending", .num (p : Rat))] rest tl hFend hok
  constructor
  · rw [traceEvents_add rows.length 1, tr.1, tr.2]
    refine congrArg _ ?_
    rw [traceEvents, hlast]
    simp [traceEvents, ChangesFeed.event, ChangesFeed.reset, applyTrailKey, hk1, hk2]
  · rw [runNexts_succ, tr.2, hlast]
    refine ⟨rfl, ?_, ?_⟩
    · simp [applyTrailKey, hk1, hk2]
    · simp [applyTrailKey, hk1, hk2]

/-- C5: the `Seq` field preserves the dynamic JSON type of the wire
token.  Decoding a row object whose `seq` field holds any value `v` — a
string, an integral number, or a floating-point number — stores exactly
`v`, and the trailing `last_seq` key of a poll response does the same:
there is no coercion of sequence tokens to a fixed integer type, so each
kind of token round-trips unchanged. -/
theorem c5_seq_type_preserved (fs : List (String × Jval)) (v : Jval) (f : ChangesFeed) :
    ((rowOfValue (.obj (fs ++ [("seq", v)]))).1).seq = v
    ∧ (applyTrailKey f "last_seq" v).seq = v := by
  constructor
  · simp only [rowOfValue, List.foldl_append, List.foldl_cons, List.foldl_nil]
    simp [setRowField]
  · simp [applyTrailKey]

/-- C6: in both feed modes, when a row with `deleted == true` is followed
by a row whose JSON has no `"deleted"` key, the `Next` call that decodes
the second row reports `Deleted = false` — the previous row's value does
not leak through the omitted key — and likewise the whole event (`ID`,
`Changes`, `Doc`) equals exactly what the second row alone decodes to,
independent of the first row's fields. -/
theorem c6_deleted_reset_between_rows (r1 : Jval) (fs2 : List (String × Jval))
    (f : ChangesFeed) (rest : List JTok) (tl : Tail)
    (hend : f.end_ = false)
    (hdel : (rowOfValue r1).1.deleted = true)
    (h1 : goodRow r1 = true)
    (h2 : goodRow (.obj fs2) = true)
    (hno : fs2.all (fun kv => kv.1 ≠ "deleted") = true) :
    ((runNexts 2 ⟨f, ⟨tokenize r1 ++ (tokenize (.obj fs2) ++ rest), tl⟩, .cont⟩).f.deleted = false
      ∧ (runNexts 2 ⟨f, ⟨tokenize r1 ++ (tokenize (.obj fs2) ++ rest), tl⟩, .cont⟩).f.event
        = (rowOfValue (.obj fs2)).1.event
      ∧ traceEvents 2 ⟨f, ⟨tokenize r1 ++ (tokenize (.obj fs2) ++ rest), tl⟩, .cont⟩
        = [(true, (rowOfValue r1).1.event), (true, (rowOfValue (.obj fs2)).1.event)])
    ∧ ((runNexts 2 ⟨f, ⟨tokenize r1 ++ (tokenize (.obj fs2) ++ rest), tl⟩, .poll⟩).f.deleted = false
      ∧ (runNexts 2 ⟨f, ⟨tokenize r1 ++ (tokenize (.obj fs2) ++ rest), tl⟩, .poll⟩).f.event
        = (rowOfValue (.obj fs2)).1.event
      ∧ traceEvents 2 ⟨f, ⟨tokenize r1 ++ (tokenize (.obj fs2) ++ rest), tl⟩, .poll⟩
        = [(true, (rowOfValue r1).1.event), (true, (rowOfValue (.obj fs2)).1.event)]) := by
  have h1ok : rowOk r1 = true := by
    simp only [goodRow, Bool.and_eq_true] at h1
    simpa [rowOk] using h1.1
  have h2ok : rowOk (.obj fs2) = true := by
    simp only [goodRow, Bool.and_eq_true] at h2
    simpa [rowOk] using h2.1
  have hdelf := rowOfValue_no_deleted fs2 hno
  have hend1 : ∀ g : ChangesFeed, g.end_ = false →
      ({(rowOfValue r1).1.apply g with err := none} : ChangesFeed).end_ = false := by
    intro g hg
    simpa [ChangesRow.apply] using hg
  constructor
  · have s1 := next_cont_row f r1 (tokenize (.obj fs2) ++ rest) tl hend h1
    have s2 := next_cont_row {(rowOfValue r1).1.apply f with err := none} (.obj fs2) rest tl
      (hend1 f hend) h2
    refine ⟨?_, ?_, ?_⟩
    · rw [show (2 : Nat) = 1 + 1 from rfl, runNexts_succ, runNexts, runNexts, s1]
      simp only [runNexts]
      rw [s2]
      simpa [ChangesRow.apply] using hdelf
    · rw [show (2 : Nat) = 1 + 1 from rfl, runNexts_succ, runNexts, runNexts, s1]
      simp only [runNexts]
      rw [s2]
      simp [ChangesFeed.event, ChangesRow.event, ChangesRow.apply]
    · rw [traceEvents, s1]
      simp only [traceEvents]
      rw [s2]
      simp [ChangesFeed.event, ChangesRow.event, ChangesRow.apply]
  · have s1 := next_poll_row f r1 (tokenize (.obj fs2) ++ rest) tl hend h1ok
    have s2 := next_poll_row {(rowOfValue r1).1.apply f with err := none} (.obj fs2) rest tl
      (hend1 f hend) h2ok
    refine ⟨?_, ?_, ?_⟩
    · rw [show (2 : Nat) = 1 + 1 from rfl, runNexts_succ, runNexts, runNexts, s1]
      simp only [runNexts]
      rw [s2]
      simpa [ChangesRow.apply] using hdelf
    · rw [show (2 : Nat) = 1 + 1 from rfl, runNexts_succ, runNexts, runNexts, s1]
      simp only [runNexts]
      rw [s2]
      simp [ChangesFeed.event, ChangesRow.event, ChangesRow.apply]
    · rw [traceEvents, s1]
      simp only [traceEvents]
      rw [s2]
      simp [ChangesFeed.event, ChangesRow.event, ChangesRow.apply]

/-- C7: once a feed — `ChangesFeed` or `DBUpdatesFeed` — has entered the
ended state, every further `Next` call returns false and leaves the whole
state untouched: no stream read, no event-field or error mutation, no way
back to the active state. -/
theorem c7_ended_next_noop :
    (∀ s : ChangesState, s.f.end_ = true → s.next = (false, s))
    ∧ ∀ u : UpdState, u.f.end_ = true → u.next = (false, u) :=
  ⟨next_ended, upd_next_ended⟩

/-- C8: on either feed type, `Close` never panics (it is a total
function), may be called before the feed is exhausted, and calling it a
second time returns no error (the underlying `net/http` response body's
`Close` is idempotent); the feed stays ended. -/
theorem c8_close_idempotent (s : ChangesState) (u : UpdState) :
    (s.close).2 = none
    ∧ (((s.close).1).close).2 = none
    ∧ (((s.close).1).close).1.f.end_ = true
    ∧ (u.close).2 = none
    ∧ (((u.close).1).close).2 = none
    ∧ (((u.close).1).close).1.f.end_ = true :=
  ⟨rfl, rfl, rfl, rfl, rfl, rfl⟩

/-- C9: when the parser hits a decode error mid-stream, that `Next` call
returns false, the error is recorded (so `Err()` returns exactly it from
then on), the feed is ended, the connection is closed — and no later
`Next` call retries: every subsequent call leaves the state untouched. -/
theorem c9_decode_error_terminal (mode : FeedMode) (f : ChangesFeed) (d : Dec) (e : GoErr)
    (hend : f.end_ = false)
    (herr : (parserStep mode f d).2.2 = some e) :
    (ChangesState.next ⟨f, d, mode⟩).1 = false
    ∧ (ChangesState.next ⟨f, d, mode⟩).2.f.err = some e
    ∧ (ChangesState.next ⟨f, d, mode⟩).2.f.end_ = true
    ∧ (ChangesState.next ⟨f, d, mode⟩).2.f.connCloseCount = f.connCloseCount + 1
    ∧ ∀ k, runNexts k (ChangesState.next ⟨f, d, mode⟩).2 = (ChangesState.next ⟨f, d, mode⟩).2 := by
  have hconn := parserStep_conn mode f d
  rcases hP : parserStep mode f d with ⟨f1, d1, e1⟩
  rw [hP] at herr hconn
  simp only at herr hconn
  subst herr
  have hnext : ChangesState.next ⟨f, d, mode⟩
      = (false, ⟨{f1 with
          err := some e,
          end_ := true,
          connCloseCount := f1.connCloseCount + 1}, d1, mode⟩) := by
    simp [ChangesState.next, hend, hP, ChangesFeed.close]
  rw [hnext]
  refine ⟨rfl, rfl, rfl, by simp [hconn], ?_⟩
  intro k
  exact runNexts_ended k _ rfl

/-- C10, counterexample to the claim as stated: a `"feed"` key that is
present with a nil value is of none of the three supported strings, yet
`DB.Changes` does not reject it — in Go `options["feed"]` is the nil
interface whether the key is absent or nil-valued, so the switch arm
`case nil, "normal", "longpoll"` sends it to the poll branch: a feed is
returned, the error is nil, and the response body is not closed. -/
theorem c10_counterexample :
    dbChanges (some .null) ⟨[JTok.lbrace, JTok.str "results", JTok.lbrack], .eof⟩
      = ⟨some ⟨{}, ⟨[], .eof⟩, .poll⟩, none, false⟩
    ∧ (dbChanges (some .null) ⟨[JTok.lbrace, JTok.str "results", JTok.lbrack], .eof⟩).feed
      ≠ none
    ∧ (dbChanges (some .null) ⟨[JTok.lbrace, JTok.str "results", JTok.lbrack], .eof⟩).err
      = none
    ∧ (dbChanges (some .null) ⟨[JTok.lbrace, JTok.str "results", JTok.lbrack], .eof⟩).bodyClosed
      = false :=
  ⟨rfl, by simp [dbChanges, pollSetup, expectTokens, Dec.token], rfl, rfl⟩

/-- C10, as amended: the `DB.Changes` dispatch rejects every present
`"feed"` option value other than nil, `"normal"`, `"longpoll"` and
`"continuous"`: it returns no feed, an error naming the unsupported
value, and the already-opened response body is closed before returning.
(A present nil value behaves like an absent key and selects the poll
branch instead.) -/
theorem c10_unsupported_feed_option (v : Jval) (d : Dec)
    (h0 : v ≠ .null) (h1 : v ≠ .str "normal") (h2 : v ≠ .str "longpoll")
    (h3 : v ≠ .str "continuous") :
    dbChanges (some v) d = ⟨none, some (.unsupportedFeed v), true⟩ := by
  cases v with
  | str s =>
    have hs1 : ¬s = "normal" := fun h => h1 (by rw [h])
    have hs2 : ¬s = "longpoll" := fun h => h2 (by rw [h])
    have hs3 : ¬s = "continuous" := fun h => h3 (by rw [h])
    simp [dbChanges, hs1, hs2, hs3]
  | null => exact absurd rfl h0
  | bool b => rfl
  | num q => rfl
  | arr xs => rfl
  | obj fs => rfl

/-- Witness for C2: a one-row continuous stream ending with a terminal
row satisfies the hypotheses, and the terminal row's string sequence
token is exposed after end-of-stream. -/
theorem c2_witness :
    ([wRow].all goodRow = true) ∧ (termRow wTerm = true)
    ∧ (runNexts 2 ⟨{}, ⟨tokList [wRow] ++ tokenize wTerm, .eof⟩, .cont⟩).f.seq
      = (rowOfValue wTerm).1.seq :=
  ⟨rfl, rfl, (c2_continuous_terminal_trace [wRow] wTerm .eof rfl rfl).2.2.1⟩

/-- Witness for C3: a one-row poll response with trailing
`"last_seq": "99-x", "pending": 3` ends with `Seq = "99-x"` and
`Pending = 3`. -/
theorem c3_witness :
    ([wRow].all rowOk = true)
    ∧ (runNexts 2 ⟨{}, ⟨tokList [wRow] ++ JTok.rbrack ::
        (tokFields [("last_seq", .str "99-x"), ("pending", .num ((3 : Int) : Rat))]
          ++ JTok.rbrace :: []), .eof⟩, .poll⟩).f.seq = .str "99-x"
    ∧ (runNexts 2 ⟨{}, ⟨tokList [wRow] ++ JTok.rbrack ::
        (tokFields [("last_seq", .str "99-x"), ("pending", .num ((3 : Int) : Rat))]
          ++ JTok.rbrace :: []), .eof⟩, .poll⟩).f.pending = 3 :=
  ⟨rfl, (c3_poll_trace [wRow] (.str "99-x") 3 [] .eof rfl).2.2.1,
    (c3_poll_trace [wRow] (.str "99-x") 3 [] .eof rfl).2.2.2.1⟩

/-- Witness for C4: the spec's example
`{"results":[],"last_seq":"99-x","foobar":{"x":[1,"y"]},"pending":1}`
yields zero events, then end with `Seq = "99-x"` and `Pending = 1`. -/
theorem c4_witness :
    ("foobar" ≠ "last_seq") ∧ ("foobar" ≠ "pending")
    ∧ traceEvents 1 ⟨{}, ⟨tokList [] ++ JTok.rbrack ::
        (tokFields [("last_seq", .str "99-x"),
            ("foobar", .obj [("x", .arr [.num 1, .str "y"])]),
            ("pending", .num ((1 : Int) : Rat))] ++ JTok.rbrace :: []), .eof⟩, .poll⟩
      = [(false, ⟨"", false, .str "99-x", [], none⟩)]
    ∧ (runNexts 1 ⟨{}, ⟨tokList [] ++ JTok.rbrack ::
        (tokFields [("last_seq", .str "99-x"),
            ("foobar", .obj [("x", .arr [.num 1, .str "y"])]),
            ("pending", .num ((1 : Int) : Rat))] ++ JTok.rbrace :: []), .eof⟩, .poll⟩).f.seq
      = .str "99-x"
    ∧ (runNexts 1 ⟨{}, ⟨tokList [] ++ JTok.rbrack ::
        (tokFields [("last_seq", .str "99-x"),
            ("foobar", .obj [("x", .arr [.num 1, .str "y"])]),
            ("pending", .num ((1 : Int) : Rat))] ++ JTok.rbrace :: []), .eof⟩, .poll⟩).f.pending
      = 1 :=
  ⟨by decide, by decide,
    (c4_poll_unknown_keys_skipped [] (.str "99-x") 1 "foobar"
      (.obj [("x", .arr [.num 1, .str "y"])]) [] .eof rfl (by decide) (by decide)).1,
    (c4_poll_unknown_keys_skipped [] (.str "99-x") 1 "foobar"
      (.obj [("x", .arr [.num 1, .str "y"])]) [] .eof rfl (by decide) (by decide)).2.2.1,
    (c4_poll_unknown_keys_skipped [] (.str "99-x") 1 "foobar"
      (.obj [("x", .arr [.num 1, .str "y"])]) [] .eof rfl (by decide) (by decide)).2.2.2⟩

/-- Witness for C6: a deleted row followed by a row with no `"deleted"`
key reports `Deleted = false` after the second `Next`, in both modes. -/
theorem c6_witness :
    ((rowOfValue wRow).1.deleted = true)
    ∧ (wRow2Fields.all (fun kv => kv.1 ≠ "deleted") = true)
    ∧ (runNexts 2 ⟨{}, ⟨tokenize wRow ++ (tokenize (.obj wRow2Fields) ++ []), .eof⟩,
        .cont⟩).f.deleted = false
    ∧ (runNexts 2 ⟨{}, ⟨tokenize wRow ++ (tokenize (.obj wRow2Fields) ++ []), .eof⟩,
        .poll⟩).f.deleted = false :=
  ⟨rfl, by decide,
    (c6_deleted_reset_between_rows wRow wRow2Fields {} [] .eof rfl rfl rfl rfl (by decide)).1.1,
    (c6_deleted_reset_between_rows wRow wRow2Fields {} [] .eof rfl rfl rfl rfl (by decide)).2.1⟩

/-- Witness for C7: a concrete ended changes feed and a concrete ended
updates feed are both left untouched by `Next`. -/
theorem c7_witness :
    ChangesState.next ⟨{end_ := true}, ⟨[JTok.null], .eof⟩, .cont⟩
      = (false, ⟨{end_ := true}, ⟨[JTok.null], .eof⟩, .cont⟩)
    ∧ UpdState.next ⟨{end_ := true}, ⟨[JTok.null], .eof⟩⟩
      = (false, ⟨{end_ := true}, ⟨[JTok.null], .eof⟩⟩) :=
  ⟨c7_ended_next_noop.1 ⟨{end_ := true}, ⟨[JTok.null], .eof⟩, .cont⟩ rfl,
    c7_ended_next_noop.2 ⟨{end_ := true}, ⟨[JTok.null], .eof⟩⟩ rfl⟩

/-- Witness for C9: a continuous feed over a malformed stream records the
syntax error, ends, closes the connection, and stays put forever. -/
theorem c9_witness :
    ((parserStep .cont {} ⟨[], .bad⟩).2.2 = some GoErr.malformed)
    ∧ (ChangesState.next ⟨{}, ⟨[], .bad⟩, .cont⟩).1 = false
    ∧ (ChangesState.next ⟨{}, ⟨[], .bad⟩, .cont⟩).2.f.err = some GoErr.malformed
    ∧ (ChangesState.next ⟨{}, ⟨[], .bad⟩, .cont⟩).2.f.connCloseCount = 1 :=
  ⟨rfl,
    (c9_decode_error_terminal .cont {} ⟨[], .bad⟩ .malformed rfl rfl).1,
    (c9_decode_error_terminal .cont {} ⟨[], .bad⟩ .malformed rfl rfl).2.1,
    (c9_decode_error_terminal .cont {} ⟨[], .bad⟩ .malformed rfl rfl).2.2.2.1⟩

/-- Witness for C10: the option value `"slow"` is rejected with an error
naming it, and the response body is closed. -/
theorem c10_witness :
    (Jval.str "slow" ≠ Jval.null)
    ∧ (Jval.str "slow" ≠ Jval.str "normal")
    ∧ (Jval.str "slow" ≠ Jval.str "longpoll")
    ∧ (Jval.str "slow" ≠ Jval.str "continuous")
    ∧ dbChanges (some (.str "slow")) ⟨[], .eof⟩
      = ⟨none, some (.unsupportedFeed (.str "slow")), true⟩ :=
  ⟨by simp, by simp, by simp, by simp,
    c10_unsupported_feed_option (.str "slow") ⟨[], .eof⟩ (by simp) (by simp) (by simp)
      (by simp)⟩

end Feeds
